import Mathlib

/-!
Verification of the core extraction/parsing routines of the
`system-design-markdoc` documentation site.

The development shallowly embeds the TypeScript sources:

* `extractRawText` and the `diff` tag transform (markdoc/tags, `part_000`);
* the two `parseFileTree` variants (`components/CodeBlock.tsx` and `part_017`);
* the semver utilities (`lib/versioning.ts`);
* the backlink index (`lib/backlinks.ts`);
* the TOC collector (`pages/_app.tsx`).

JavaScript values reaching the extractor are modelled by the inductive
type `Val` below.  JS objects are modelled with the fixed field set the
code reads (`type`, `attributes`, `content`, `value`, `children`, `tag`,
`__content`, `__tag`); a field that is absent on the JS side is `vundefined`,
and the JS `"f" in o` presence test is modelled as the field not being
`vundefined` (the code under verification only ever stores real values in
the fields it tests for presence).  JS numbers are modelled as integers.
-/

/-- A JavaScript value as seen by the extraction code. -/
inductive Val where
  | vnull
  | vundefined
  | vstr (s : String)
  | vnum (n : Int)
  | varr (items : List Val)
  | vobj (type attributes content value children tag xcontent xtag : Val)

namespace Val

/-- JS truthiness (`!node` is `!truthy node`). -/
def truthy : Val → Bool
  | vnull => false
  | vundefined => false
  | vstr s => s ≠ ""
  | vnum n => n ≠ 0
  | varr _ => true
  | vobj .. => true

/-- Field projections: `undefined` on non-objects, like JS property reads
on primitives (the code always guards reads that could throw). -/
def typeF : Val → Val
  | vobj t _ _ _ _ _ _ _ => t
  | _ => vundefined

def attributesF : Val → Val
  | vobj _ a _ _ _ _ _ _ => a
  | _ => vundefined

def contentF : Val → Val
  | vobj _ _ c _ _ _ _ _ => c
  | _ => vundefined

def valueF : Val → Val
  | vobj _ _ _ v _ _ _ _ => v
  | _ => vundefined

def childrenF : Val → Val
  | vobj _ _ _ _ ch _ _ _ => ch
  | _ => vundefined

def tagF : Val → Val
  | vobj _ _ _ _ _ tg _ _ => tg
  | _ => vundefined

def xcontentF : Val → Val
  | vobj _ _ _ _ _ _ xc _ => xc
  | _ => vundefined

def xtagF : Val → Val
  | vobj _ _ _ _ _ _ _ xt => xt
  | _ => vundefined

/-- `v === null || v === undefined` (the `!== undefined && !== null` guards). -/
def isNullish : Val → Bool
  | vnull => true
  | vundefined => true
  | _ => false

/-- `v === undefined`. -/
def isUndefined : Val → Bool
  | vundefined => true
  | _ => false

/-- JS strict equality of a value against a string literal
(`node.type === "fence"` and friends). -/
def strEq : Val → String → Bool
  | vstr s, q => s = q
  | _, _ => false

/-- `Array.isArray`. -/
def isArr : Val → Bool
  | varr _ => true
  | _ => false

/-- The element list of an array value (`[]` on non-arrays; only ever used
under an `isArr` guard). -/
def arrItems : Val → List Val
  | varr items => items
  | _ => []

end Val

open Val

/-- JS `Array.prototype.join` / the joins performed via `parts.join(sep)`. -/
def joinSep (sep : String) : List String → String
  | [] => ""
  | [x] => x
  | x :: y :: xs => x ++ sep ++ joinSep sep (y :: xs)

mutual

/-- JS `String(v)` coercion. -/
def jsString : Val → String
  | .vnull => "null"
  | .vundefined => "undefined"
  | .vstr s => s
  | .vnum n => toString n
  | .varr items => joinSep "," (jsElems items)
  | .vobj .. => "[object Object]"

/-- Elements of an array under `Array.prototype.toString`
(null/undefined render as empty strings). -/
def jsElems : List Val → List String
  | [] => []
  | .vnull :: rest => "" :: jsElems rest
  | .vundefined :: rest => "" :: jsElems rest
  | v :: rest => jsString v :: jsElems rest

end

/-- The string-valued elements of a list, in order
(`children.filter(c => typeof c === "string")`). -/
def stringsOnly (l : List Val) : List String :=
  l.filterMap fun v => match v with
    | .vstr s => some s
    | _ => none

mutual

/-- `extractRawText` from `src/unnamed/part_000` (markdoc diff tag module),
translated clause by clause. -/
def extractRawText : Val → String
  | .vstr s => s
  | .vnum n => toString n
  | .vnull => ""
  | .vundefined => ""
  | .varr items => joinSep "\n" (extractParts items)
  | .vobj t a c v ch _tg _xc _xt =>
    -- the `node.children && Array.isArray(node.children)` guards all test
    -- whether the `children` field is an array, hence the outer match
    match ch with
    | .varr l =>
      -- fence: raw content from attributes
      if t.strEq "fence" && a.truthy && !(a.contentF.isNullish) then
        jsString a.contentF
      -- paragraph: join children with "" and append a newline
      else if t.strEq "paragraph" then
        joinSep "" (extractParts l) ++ "\n"
      -- text: content, then value, then string children
      else if t.strEq "text" && !c.isNullish then
        jsString c
      else if t.strEq "text" && !v.isNullish then
        jsString v
      else if t.strEq "text" then
        (let s := joinSep "" (stringsOnly l)
         if s = "" then joinSep "\n" (extractParts l) else s)
      -- direct content / value
      else if !c.isNullish then
        jsString c
      else if !v.isNullish then
        jsString v
      -- recurse into children
      else
        joinSep "\n" (extractParts l)
    | _ =>
      -- same chain with every children-is-array branch unreachable
      if t.strEq "fence" && a.truthy && !(a.contentF.isNullish) then
        jsString a.contentF
      else if t.strEq "text" && !c.isNullish then
        jsString c
      else if t.strEq "text" && !v.isNullish then
        jsString v
      else if !c.isNullish then
        jsString c
      else if !v.isNullish then
        jsString v
      else ""

/-- The `parts` accumulation shared by the array and paragraph branches:
string items are pushed unconditionally, other items only when their
extraction is non-empty (`if (text) parts.push(text)`). -/
def extractParts : List Val → List String
  | [] => []
  | .vstr s :: rest => s :: extractParts rest
  | item :: rest =>
    let t := extractRawText item
    if t = "" then extractParts rest else t :: extractParts rest

end

/-! ## Diff tag transform (`diff.transform` in `src/unnamed/part_000`) -/

/-- `node.children` scan: collect the direct children of kind `fence`
(`child && child.type === "fence"`). -/
def fenceNodesOf (children : List Val) : List Val :=
  children.filter fun child => child.truthy && child.typeF.strEq "fence"

/-- `String(fence.attributes?.content || "")`: optional chaining yields
`undefined` on a nullish `attributes`; `|| ""` replaces a falsy content. -/
def fenceContent (f : Val) : String :=
  let a := f.attributesF
  let c := if a.isNullish then Val.vundefined else a.contentF
  if c.truthy then jsString c else ""

/-- One step of the loop over `node.transformChildren(config)` output:
a transformed child carrying a `__content` marker overwrites the
original/new text according to its `__tag`.  Presence of `__content`
(`"__content" in child.attributes`) is modelled as the field not being
`undefined`. -/
def applyMarker (acc : String × String) (child : Val) : String × String :=
  match child with
  | .vobj .. =>
    let attrs := child.attributesF
    if attrs.truthy && !(attrs.xcontentF.isUndefined) then
      if attrs.xtagF.strEq "original" then (jsString attrs.xcontentF, acc.2)
      else if attrs.xtagF.strEq "new" then (acc.1, jsString attrs.xcontentF)
      else acc
    else acc
  | _ => acc

/-- One step of the final-fallback loop over the raw children:
an untransformed `original`/`new` tag child is raw-extracted, but only
into a still-empty field. -/
def applyLegacyTag (acc : String × String) (child : Val) : String × String :=
  if child.truthy && child.typeF.strEq "tag" then
    if child.tagF.strEq "original" && acc.1 = "" then
      (extractRawText (if child.childrenF.truthy then child.childrenF else .varr []),
       acc.2)
    else if child.tagF.strEq "new" && acc.2 = "" then
      (acc.1,
       extractRawText (if child.childrenF.truthy then child.childrenF else .varr []))
    else acc
  else acc

/-- The `originalText`/`newText` computation of the diff tag's `transform`.
`children` is `node.children`; `tchildren` stands for the output of the
external `node.transformChildren(config)` call (Markdoc machinery outside
this repository), supplied as a parameter. -/
def resolveDiffText (children : List Val) (tchildren : List Val) : String × String :=
  let fences := fenceNodesOf children
  let fenceResolved :=
    match fences with
    | f0 :: f1 :: _ => (fenceContent f0, fenceContent f1)
    | [f0] => (fenceContent f0, "")
    | [] => ("", "")
  -- `if (!originalText && !newText)` — fall back only when both are empty
  if fenceResolved.1 = "" && fenceResolved.2 = "" then
    let marked := tchildren.foldl applyMarker fenceResolved
    -- `if (!originalText || !newText)` — final fallback over raw children
    if marked.1 = "" || marked.2 = "" then children.foldl applyLegacyTag marked
    else marked
  else fenceResolved

/-! ## Semantic versions (`src/lib/versioning.ts`) -/

structure SemVer where
  major : Nat
  minor : Nat
  patch : Nat
  raw : String
  deriving DecidableEq

/-- `parseInt(digits, 10)` on a nonempty digit string. -/
def digitsToNat (l : List Char) : Nat :=
  l.foldl (fun acc c => 10 * acc + (c.toNat - '0'.toNat)) 0

/-- `parseSemVer`: match against `^v?(\d+)(?:\.(\d+))?(?:\.(\d+))?$`,
missing groups defaulting to `"0"`. -/
def parseSemVer (tag : String) : Option SemVer :=
  let cs :=
    match tag.data with
    | 'v' :: rest => rest
    | other => other
  let d1 := cs.takeWhile Char.isDigit
  let r1 := cs.dropWhile Char.isDigit
  if d1.isEmpty then none
  else
    match r1 with
    | [] => some ⟨digitsToNat d1, 0, 0, tag⟩
    | '.' :: r2 =>
      let d2 := r2.takeWhile Char.isDigit
      let r2' := r2.dropWhile Char.isDigit
      if d2.isEmpty then none
      else
        match r2' with
        | [] => some ⟨digitsToNat d1, digitsToNat d2, 0, tag⟩
        | '.' :: r3 =>
          let d3 := r3.takeWhile Char.isDigit
          let r3' := r3.dropWhile Char.isDigit
          if d3.isEmpty then none
          else if r3'.isEmpty then
            some ⟨digitsToNat d1, digitsToNat d2, digitsToNat d3, tag⟩
          else none
        | _ => none
    | _ => none

/-- `a.localeCompare(b)`, modelled as code-point lexicographic comparison
(the locale-dependent collation is outside the embedding; no claim
depends on it). -/
def localeCompare (a b : String) : Int :=
  if a < b then -1 else if b < a then 1 else 0

/-- `compareSemVer` from `src/lib/versioning.ts`. -/
def compareSemVer (a b : String) : Int :=
  match parseSemVer a, parseSemVer b with
  | some semA, some semB =>
    let majorDiff : Int := (semA.major : Int) - (semB.major : Int)
    if majorDiff ≠ 0 then majorDiff
    else
      let minorDiff : Int := (semA.minor : Int) - (semB.minor : Int)
      if minorDiff ≠ 0 then minorDiff
      else (semA.patch : Int) - (semB.patch : Int)
  | _, _ => localeCompare a b

/-! ## Backlinks (`src/lib/backlinks.ts`) -/

inductive LinkType where
  | markdown
  | mermaid
  deriving DecidableEq

structure BacklinkEntry where
  sourcePath : String
  sourceTitle : String
  linkType : LinkType
  deriving DecidableEq

/-- The backlinks index: a JS object used as an insertion-ordered map from
normalized target path to its bucket of entries. -/
abbrev BacklinksIndex := List (String × List BacklinkEntry)

def lookupIdx (idx : BacklinksIndex) (k : String) : Option (List BacklinkEntry) :=
  (idx.find? fun p => p.1 = k).map (·.2)

/-- `if (!index[k]) index[k] = []; index[k].push(e)`. -/
def pushEntry (idx : BacklinksIndex) (k : String) (e : BacklinkEntry) : BacklinksIndex :=
  match lookupIdx idx k with
  | none => idx ++ [(k, [e])]
  | some _ => idx.map fun p => if p.1 = k then (p.1, p.2 ++ [e]) else p

/-- JS `s.endsWith(suffix)` (list-based for kernel evaluation). -/
def strEnds (s suffix : String) : Bool :=
  suffix.data.isSuffixOf s.data

/-- JS `s.startsWith(pre)` (list-based for kernel evaluation). -/
def strStarts (s pre : String) : Bool :=
  pre.data.isPrefixOf s.data

/-- Drop the last `n` characters (list-based for kernel evaluation). -/
def strDropR (s : String) (n : Nat) : String :=
  String.mk (s.data.take (s.data.length - n))

/-- `normalizeInternalPath`: strip a final `.md`, then one trailing `/`,
then everything from the first `#` on. -/
def normalizeInternalPath (path : String) : String :=
  let n1 := if strEnds path ".md" then strDropR path 3 else path
  let n2 := if strEnds n1 "/" then strDropR n1 1 else n1
  String.mk (n2.data.takeWhile (· ≠ '#'))

/-- The scan of `/\[([^\]]+)\]\(([^)]+)\)/g` over the text: at each
position a match attempt (maximal nonempty bracket run, `]`, `(`,
maximal nonempty paren run, `)`); on success the href group is emitted
and scanning resumes after the match, otherwise at the next character.
The fuel argument (instantiated with the text length, an upper bound on
the number of steps) only makes the recursion structural. -/
def mdScan : Nat → List Char → List String
  | 0, _ => []
  | _ + 1, [] => []
  | fuel + 1, c :: rest =>
    if c = '[' then
      let t := rest.takeWhile (· ≠ ']')
      let r1 := rest.dropWhile (· ≠ ']')
      match t, r1 with
      | _ :: _, ']' :: '(' :: r2 =>
        let h := r2.takeWhile (· ≠ ')')
        let r3 := r2.dropWhile (· ≠ ')')
        match h, r3 with
        | _ :: _, ')' :: r4 => String.mk h :: mdScan fuel r4
        | _, _ => mdScan fuel rest
      | _, _ => mdScan fuel rest
    else mdScan fuel rest

/-- The raw href groups of every markdown-link match in the content. -/
def rawMdHrefs (content : String) : List String :=
  mdScan content.data.length content.data

/-- `extractMarkdownLinks`: keep internal hrefs only, normalized. -/
def extractMarkdownLinks (content : String) : List String :=
  (rawMdHrefs content).filterMap fun href =>
    if strStarts href "/" || strStarts href "./" || strStarts href "../" then
      some (normalizeInternalPath href)
    else none

/-- `\w` of `/click\s+\w+\s+"([^"]+)"/`. -/
def isWordChar (c : Char) : Bool :=
  ('a' ≤ c && c ≤ 'z') || ('A' ≤ c && c ≤ 'Z') || ('0' ≤ c && c ≤ '9') || c = '_'

/-- Match attempt for the tail of a mermaid `click` directive
(after the literal `click`): `\s+\w+\s+"([^"]+)"`, returning the href
group and the remainder on success. -/
def mermaidTail (l : List Char) : Option (String × List Char) :=
  let w1 := l.takeWhile Char.isWhitespace
  let r1 := l.dropWhile Char.isWhitespace
  if w1.isEmpty then none
  else
    let w := r1.takeWhile isWordChar
    let r2 := r1.dropWhile isWordChar
    if w.isEmpty then none
    else
      let s2 := r2.takeWhile Char.isWhitespace
      let r3 := r2.dropWhile Char.isWhitespace
      if s2.isEmpty then none
      else
        match r3 with
        | '"' :: r4 =>
          let h := r4.takeWhile (· ≠ '"')
          let r5 := r4.dropWhile (· ≠ '"')
          match h, r5 with
          | _ :: _, '"' :: r6 => some (String.mk h, r6)
          | _, _ => none
        | _ => none

/-- The scan of `/click\s+\w+\s+"([^"]+)"/g`, fuelled like `mdScan`. -/
def mermaidScan : Nat → List Char → List String
  | 0, _ => []
  | _ + 1, [] => []
  | fuel + 1, c :: rest =>
    match c, rest with
    | 'c', 'l' :: 'i' :: 'c' :: 'k' :: r1 =>
      match mermaidTail r1 with
      | some (h, r2) => h :: mermaidScan fuel r2
      | none => mermaidScan fuel rest
    | _, _ => mermaidScan fuel rest

/-- `extractMermaidLinks`: keep absolute hrefs only, normalized. -/
def extractMermaidLinks (content : String) : List String :=
  (mermaidScan content.data.length content.data).filterMap fun href =>
    if strStarts href "/" then some (normalizeInternalPath href) else none

structure Page where
  path : String
  title : String
  content : String

/-- The per-page indexing step of `buildBacklinksIndex`: append one entry
per markdown link, then one per mermaid link. -/
def indexPage (idx : BacklinksIndex) (page : Page) : BacklinksIndex :=
  let afterMd := (extractMarkdownLinks page.content).foldl
    (fun acc targetPath =>
      pushEntry acc targetPath ⟨page.path, page.title, LinkType.markdown⟩) idx
  (extractMermaidLinks page.content).foldl
    (fun acc targetPath =>
      pushEntry acc targetPath ⟨page.path, page.title, LinkType.mermaid⟩) afterMd

/-- `buildBacklinksIndex`. -/
def buildBacklinksIndex (pages : List Page) : BacklinksIndex :=
  pages.foldl indexPage []

/-- `getBacklinksForPage`: normalize the query, `index[normalized] || []`. -/
def getBacklinksForPage (pagePath : String) (idx : BacklinksIndex) : List BacklinkEntry :=
  (lookupIdx idx (normalizeInternalPath pagePath)).getD []

/-! ## TOC collector (`src/pages/_app.tsx`) -/

/-- Attribute lookup on a rendered tag's attribute object. -/
def getAttr (attrs : List (String × Val)) (k : String) : Val :=
  match attrs.find? fun p => p.1 = k with
  | some p => p.2
  | none => Val.vundefined

def Val.isStr : Val → Bool
  | .vstr _ => true
  | _ => false

/-- `isADRNode`: the four ADR attributes are present with string values. -/
def isADRNode (attrs : List (String × Val)) : Bool :=
  (getAttr attrs "id").isStr && (getAttr attrs "title").isStr &&
  (getAttr attrs "status").isStr && (getAttr attrs "date").isStr

def getStrAttr (attrs : List (String × Val)) (k : String) : String :=
  match getAttr attrs k with
  | .vstr s => s
  | _ => ""

/-- `/[^a-z0-9]+/g → "-"`: replace each maximal run of non-slug characters
by a single dash (emitted at the end of the run). -/
def isSlugChar (c : Char) : Bool :=
  ('a' ≤ c && c ≤ 'z') || ('0' ≤ c && c ≤ '9')

def dashRuns : List Char → List Char
  | [] => []
  | [c] => if isSlugChar c then [c] else ['-']
  | c :: d :: rest =>
    if isSlugChar c then c :: dashRuns (d :: rest)
    else if isSlugChar d then '-' :: dashRuns (d :: rest)
    else dashRuns (d :: rest)

/-- `/(^-|-$)/g → ""`: drop one leading and one trailing dash. -/
def stripEdgeDashes (l : List Char) : List Char :=
  let l1 := match l with
    | '-' :: r => r
    | other => other
  match l1.reverse with
  | '-' :: r => r.reverse
  | _ => l1

/-- `generateSlug` from `src/pages/_app.tsx`.  (`toLowerCase` is modelled
by `Char.toLower`, which agrees on ASCII.) -/
def generateSlug (id title : String) : String :=
  "adr-" ++ id ++ "-" ++
    String.mk (stripEdgeDashes (dashRuns (title.data.map Char.toLower)))

/-- A rendered (post-transform) node: a plain string or a Tag-like object.
Rendered Markdoc tags always carry an attributes object and a children
array. -/
inductive RNode where
  | str (s : String)
  | tag (name : String) (attributes : List (String × Val)) (children : List RNode)

/-- A TOC entry, as the JS object pushed onto `sections`. -/
abbrev TocEntry := List (String × Val)

/-- Object spread `{...attrs, title}`: override in place or append. -/
def setKey (attrs : List (String × Val)) (k : String) (v : Val) : List (String × Val) :=
  if (attrs.find? fun p => p.1 = k).isSome then
    attrs.map fun p => if p.1 = k then (p.1, v) else p
  else attrs ++ [(k, v)]

mutual

/-- `collectHeadings` from `src/pages/_app.tsx`, with the `sections`
accumulator made explicit as the returned list. -/
def collectHeadings : RNode → List TocEntry
  | .str _ => []
  | .tag name attrs children =>
    (if name = "Heading" then
      match children.head? with
      | some (.str t) => [setKey attrs "title" (Val.vstr t)]
      | _ => []
    else []) ++
    (if isADRNode attrs then
      [[("level", Val.vnum 3),
        ("id", Val.vstr (generateSlug (getStrAttr attrs "id") (getStrAttr attrs "title"))),
        ("title", Val.vstr (getStrAttr attrs "title"))]]
    else collectList children)

def collectList : List RNode → List TocEntry
  | [] => []
  | n :: rest => collectHeadings n ++ collectList rest

end

/-! ## File-tree parsers

`parseFileTree` exists twice: in `src/components/CodeBlock.tsx` (raw
leading-space indents, only folders pushed on the stack) and in
`src/unnamed/part_017` (level = leading-space count ÷ 2, every node
pushed).  Both build trees by mutating nodes reachable from the stack;
the functional embedding defers each attachment to the moment the child
is popped off the stack (entries below a stack entry never change while
it is on the stack, so the parent receiving the child and the order of
its children are unchanged by the deferral; nodes the source never
pushes are attached immediately). -/

/-- JS `line.trim()` / `content.trim()`. -/
def trimChars (l : List Char) : List Char :=
  ((l.dropWhile Char.isWhitespace).reverse.dropWhile Char.isWhitespace).reverse

/-- `content.split("\n")`. -/
def splitLines : List Char → List (List Char)
  | [] => [[]]
  | '\n' :: rest => [] :: splitLines rest
  | c :: rest =>
    match splitLines rest with
    | [] => [[c]]
    | l :: ls => (c :: l) :: ls

/-- A `CodeBlock.tsx` tree node: `children` is created (empty) for
folders at construction time and absent for files. -/
inductive TreeNode where
  | mk (name : String) (isFolder : Bool) (children : Option (List TreeNode))

def TreeNode.name : TreeNode → String
  | .mk n _ _ => n

def TreeNode.isFolder : TreeNode → Bool
  | .mk _ f _ => f

def TreeNode.children : TreeNode → Option (List TreeNode)
  | .mk _ _ c => c

/-- `parent.children.push(node)` guarded by `if (parent.children)`. -/
def addChild1 (p : TreeNode) (c : TreeNode) : TreeNode :=
  match p with
  | .mk n f (some l) => .mk n f (some (l ++ [c]))
  | .mk n f none => .mk n f none

/-- Parser state: completed roots plus the stack of open `{node, indent}`
entries, top first. -/
abbrev P1State := List TreeNode × List (TreeNode × Nat)

/-- Merge a run of popped stack entries top-to-bottom into one subtree
(each popped node becomes the last child of the entry below it). -/
def collapsePopped1 (popped : List (TreeNode × Nat)) : Option TreeNode :=
  popped.foldl
    (fun pending e =>
      some (match pending with
        | none => e.1
        | some c => addChild1 e.1 c))
    none

/-- `while (stack.length > 0 && stack[top].indent >= indent) stack.pop()`,
with the deferred attachments of the popped run performed. -/
def popWhile1 (d : Nat) (st : P1State) : P1State :=
  let popped := st.2.takeWhile fun e => d ≤ e.2
  let kept := st.2.dropWhile fun e => d ≤ e.2
  match collapsePopped1 popped with
  | none => (st.1, kept)
  | some m =>
    match kept with
    | (p, i) :: restK => (st.1, (addChild1 p m, i) :: restK)
    | [] => (st.1 ++ [m], [])

/-- One line of the `CodeBlock.tsx` parser loop. -/
def step1 (st : P1State) (line : List Char) : P1State :=
  if (trimChars line).isEmpty then st
  else
    let indent := (line.takeWhile Char.isWhitespace).length
    let name := trimChars line
    let isFolder := name.getLast? = some '/'
    let node : TreeNode :=
      .mk (String.mk (if isFolder then name.dropLast else name)) isFolder
        (if isFolder then some [] else none)
    let st' := popWhile1 indent st
    if isFolder then (st'.1, (node, indent) :: st'.2)
    else
      match st'.2 with
      | [] => (st'.1 ++ [node], [])
      | (p, i) :: rest => (st'.1, (addChild1 p node, i) :: rest)

namespace CodeBlock

/-- `parseFileTree` from `src/components/CodeBlock.tsx`. -/
def parseFileTree (content : String) : List TreeNode :=
  let lines := splitLines (trimChars content.data)
  (popWhile1 0 (lines.foldl step1 ([], []))).1

end CodeBlock

/-- A `part_017` tree node: carries a `level` and has `children` created
lazily on first attachment.  `part_017` computes `level = count / 2` as a
JS float and only ever compares levels with `>=`; since doubling is an
order isomorphism fixing that comparison, the embedding stores the
doubled level — the raw leading-space count — as a `Nat` (no claim reads
the numeric value of the `level` field). -/
inductive TreeNode2 where
  | mk (name : String) (isFolder : Bool) (level : Nat) (children : Option (List TreeNode2))

def TreeNode2.name : TreeNode2 → String
  | .mk n _ _ _ => n

def TreeNode2.isFolder : TreeNode2 → Bool
  | .mk _ f _ _ => f

def TreeNode2.level : TreeNode2 → Nat
  | .mk _ _ lv _ => lv

def TreeNode2.children : TreeNode2 → Option (List TreeNode2)
  | .mk _ _ _ c => c

/-- `if (!parent.children) parent.children = []; parent.children.push(node)`. -/
def addChild2 (p : TreeNode2) (c : TreeNode2) : TreeNode2 :=
  match p with
  | .mk n f lv (some l) => .mk n f lv (some (l ++ [c]))
  | .mk n f lv none => .mk n f lv (some [c])

abbrev P2State := List TreeNode2 × List (TreeNode2 × Nat)

def collapsePopped2 (popped : List (TreeNode2 × Nat)) : Option TreeNode2 :=
  popped.foldl
    (fun pending e =>
      some (match pending with
        | none => e.1
        | some c => addChild2 e.1 c))
    none

/-- `while (stack.length > 0 && stack[top].level >= level) stack.pop()`
(levels compared through the order isomorphism above). -/
def popWhile2 (lv : Nat) (st : P2State) : P2State :=
  let popped := st.2.takeWhile fun e => lv ≤ e.2
  let kept := st.2.dropWhile fun e => lv ≤ e.2
  match collapsePopped2 popped with
  | none => (st.1, kept)
  | some m =>
    match kept with
    | (p, i) :: restK => (st.1, (addChild2 p m, i) :: restK)
    | [] => (st.1 ++ [m], [])

/-- One line of the `part_017` parser loop: every node is pushed. -/
def step2 (st : P2State) (line : List Char) : P2State :=
  if (trimChars line).isEmpty then st
  else
    let level := (line.takeWhile Char.isWhitespace).length
    let name := trimChars line
    let isFolder := name.getLast? = some '/'
    let node : TreeNode2 :=
      .mk (String.mk (if isFolder then name.dropLast else name)) isFolder level none
    let st' := popWhile2 level st
    (st'.1, (node, level) :: st'.2)

namespace Part017

/-- `parseFileTree` from `src/unnamed/part_017`. -/
def parseFileTree (content : String) : List TreeNode2 :=
  let lines := splitLines (trimChars content.data)
  (popWhile2 0 (lines.foldl step2 ([], []))).1

end Part017

/-- A plain tree: names, folder flags and nesting, with the `level` field
dropped and absent children read as `[]`. -/
inductive PTree where
  | mk (name : String) (isFolder : Bool) (children : List PTree)

def PTree.name : PTree → String
  | .mk n _ _ => n

def PTree.isFolder : PTree → Bool
  | .mk _ f _ => f

def PTree.children : PTree → List PTree
  | .mk _ _ c => c

mutual

def toPlain1 : TreeNode → PTree
  | .mk n f (some l) => .mk n f (toPlain1List l)
  | .mk n f none => .mk n f []

def toPlain1List : List TreeNode → List PTree
  | [] => []
  | t :: ts => toPlain1 t :: toPlain1List ts

end

mutual

def toPlain2 : TreeNode2 → PTree
  | .mk n f _ (some l) => .mk n f (toPlain2List l)
  | .mk n f _ none => .mk n f []

def toPlain2List : List TreeNode2 → List PTree
  | [] => []
  | t :: ts => toPlain2 t :: toPlain2List ts

end

mutual

/-- The `TreeNode` invariant of the `CodeBlock.tsx` parser: `isFolder`
holds exactly when the `children` field is present. -/
def wfTree : TreeNode → Bool
  | .mk _ f none => !f
  | .mk _ f (some l) => f && wfTreeList l

def wfTreeList : List TreeNode → Bool
  | [] => true
  | t :: ts => wfTree t && wfTreeList ts

end

/-! ## Derived notions used in the statements -/

/-- The line list both parsers operate on. -/
def linesOf (content : String) : List (List Char) :=
  splitLines (trimChars content.data)

/-- Leading-whitespace count of a line. -/
def indentOf (line : List Char) : Nat :=
  (line.takeWhile Char.isWhitespace).length

/-- Every nonblank line is indented by a multiple of two spaces. -/
def evenIndents (lines : List (List Char)) : Bool :=
  lines.all fun l => (trimChars l).isEmpty || indentOf l % 2 = 0

/-- The `(isFolder, level)` shape of a `part_017` stack entry. -/
def shapeOf (stk : List (TreeNode2 × Nat)) : List (Bool × Nat) :=
  stk.map fun e => (e.1.isFolder, e.2)

/-- One line of the parent-is-a-folder checker: it mirrors the `part_017`
stack shape and records whether the entry a new node is attached to
(the post-pop top of stack) is a folder. -/
def goodStep (st : List (Bool × Nat) × Bool) (line : List Char) : List (Bool × Nat) × Bool :=
  if (trimChars line).isEmpty then st
  else
    let level := (line.takeWhile Char.isWhitespace).length
    let isFolder := (trimChars line).getLast? = some '/'
    let kept := st.1.dropWhile fun e => level ≤ e.2
    let okHere :=
      match kept with
      | [] => true
      | (f, _) :: _ => f
    ((isFolder, level) :: kept, st.2 && okHere)

/-- The input never attaches a node to a non-folder parent in the
`part_017` parser run. -/
def goodLines (lines : List (List Char)) : Bool :=
  (lines.foldl goodStep ([], true)).2

def optL : Option (List TreeNode2) → List TreeNode2
  | some l => l
  | none => []

/-- Pointwise correspondence of the two parser stacks when no file node
is pending on the `part_017` stack: entries pair up with indent = 2·level,
equal names, both folders, and plain-equal accumulated children. -/
def StackRel : List (TreeNode × Nat) → List (TreeNode2 × Nat) → Prop
  | [], [] => True
  | (n1, i1) :: r1, (n2, l2) :: r2 =>
    i1 = l2 ∧ n1.name = n2.name ∧
    n1.isFolder = true ∧ n2.isFolder = true ∧
    (∃ c1, n1.children = some c1 ∧ toPlain1List c1 = toPlain2List (optL n2.children)) ∧
    StackRel r1 r2
  | _, _ => False

/-- Simulation invariant between the two parser states.  Either the
stacks correspond pointwise (`StackRel`), or the `part_017` stack has a
file entry on top whose plain image the `CodeBlock` parser has already
attached (to the corresponding parent's children, or to the roots). -/
def SimInv (s1 : P1State) (s2 : P2State) : Prop :=
  (toPlain1List s1.1 = toPlain2List s2.1 ∧ StackRel s1.2 s2.2) ∨
  (∃ f fl rest, s2.2 = (f, fl) :: rest ∧ f.isFolder = false ∧
    f.children = none ∧
    match rest, s1.2 with
    | [], [] => toPlain1List s1.1 = toPlain2List s2.1 ++ [toPlain2 f]
    | (p2, l2) :: rest2, (p1, i1) :: rest1 =>
      toPlain1List s1.1 = toPlain2List s2.1 ∧ i1 = l2 ∧
      p1.name = p2.name ∧ p1.isFolder = true ∧ p2.isFolder = true ∧
      (∃ c1, p1.children = some c1 ∧
        toPlain1List c1 = toPlain2List (optL p2.children) ++ [toPlain2 f]) ∧
      StackRel rest1 rest2
    | _, _ => False)

/-- Membership of an entry in an index bucket. -/
def hasEntry (idx : BacklinksIndex) (k : String) (e : BacklinkEntry) : Prop :=
  ∃ es, lookupIdx idx k = some es ∧ e ∈ es

/-! ## Concrete fixture values -/

/-- A markdoc paragraph AST node with a single text child. -/
def paraV (s : String) : Val :=
  .vobj (.vstr "paragraph") .vundefined .vundefined .vundefined (.varr [.vstr s]) .vundefined .vundefined .vundefined

/-- A markdoc fence AST node with raw content `s`. -/
def fenceV (s : String) : Val :=
  .vobj (.vstr "fence")
    (.vobj .vundefined .vundefined (.vstr s) .vundefined .vundefined .vundefined .vundefined .vundefined)
    .vundefined .vundefined .vundefined .vundefined .vundefined .vundefined

/-- A markdoc `{% original %}` tag AST node with a single text child. -/
def origTagV (s : String) : Val :=
  .vobj (.vstr "tag") .vundefined .vundefined .vundefined (.varr [.vstr s]) (.vstr "original") .vundefined .vundefined

/-- An ADR attribute set. -/
def adrAttrs : List (String × Val) :=
  [("id", .vstr "001"), ("title", .vstr "Use X"),
   ("status", .vstr "accepted"), ("date", .vstr "2024-01-01")]

/-! ## Helper lemmas -/

theorem append_newline_ne_empty (a : String) : a ++ "\n" ≠ "" := by
  intro h
  have h2 := congrArg String.data h
  simp [String.data_append] at h2

theorem foldl_keep {α β : Type} (f : β → α → β) (l : List α) (a : β)
    (h : ∀ c ∈ l, ∀ acc, f acc c = acc) : l.foldl f a = a := by
  induction l generalizing a with
  | nil => rfl
  | cons x xs ih =>
    simp only [List.foldl_cons, h x (by simp)]
    exact ih a fun c hc acc => h c (by simp [hc]) acc

theorem applyMarker_neutral (c : Val)
    (h : (c.attributesF.truthy && !(c.attributesF.xcontentF.isUndefined) &&
      (c.attributesF.xtagF.strEq "original" || c.attributesF.xtagF.strEq "new")) = false) :
    ∀ acc, applyMarker acc c = acc := by
  intro acc
  cases c with
  | vobj t a cc v ch tg xc xt =>
    simp only [applyMarker, Val.attributesF] at h ⊢
    rcases Bool.and_eq_false_iff.mp h with h' | h'
    · simp [h']
    · rcases Bool.or_eq_false_iff.mp h' with ⟨h1, h2⟩
      split
      · simp [h1, h2]
      · rfl
  | vnull => rfl
  | vundefined => rfl
  | vstr s => rfl
  | vnum n => rfl
  | varr l => rfl

theorem applyLegacyTag_neutral (c : Val)
    (h : (c.truthy && c.typeF.strEq "tag" &&
      (c.tagF.strEq "original" || c.tagF.strEq "new")) = false) :
    ∀ acc, applyLegacyTag acc c = acc := by
  intro acc
  simp only [applyLegacyTag]
  rcases Bool.and_eq_false_iff.mp h with h' | h'
  · simp [h']
  · rcases Bool.or_eq_false_iff.mp h' with ⟨h1, h2⟩
    simp [h1, h2]

/-! ## Claims -/

/-- Claim C1, counterexample: extracting the two-paragraph sequence yields
`"a\n\nb\n"`, not `"a\nb\n"`, and two bare strings in an array are joined
with a newline, not concatenated bare — every part of an array goes
through the single `parts.join("\n")`. -/
theorem C1_array_join_cex :
    extractRawText (.varr [paraV "a", paraV "b"]) = "a\n\nb\n" ∧
    extractRawText (.varr [paraV "a", paraV "b"]) ≠ "a\nb\n" ∧
    extractRawText (.varr [.vstr "a", .vstr "b"]) = "a\nb" := by decide

/-- Claim C1, amended: when extracting an array, every collected part —
bare string elements (pushed even when empty) and non-empty recursed
sub-results alike — is joined with a single newline separator, so the
two-paragraph sequence yields `a ++ "\n\n" ++ b ++ "\n"`. -/
theorem C1_array_join_amended (a b s1 s2 : String) :
    extractRawText (.varr [paraV a, paraV b]) = a ++ "\n\n" ++ b ++ "\n" ∧
    extractRawText (.varr [.vstr s1, .vstr s2]) = s1 ++ "\n" ++ s2 := by
  constructor
  · have hd : ("\n\n" : String).data = ['\n', '\n'] := rfl
    simp [extractRawText, extractParts, joinSep, paraV, Val.strEq,
      append_newline_ne_empty]
    apply String.ext
    simp [String.data_append, hd]
  · simp [extractRawText, extractParts, joinSep]

/-- Claim C3, counterexample: `compareSemVer` returns the raw major-field
difference `2` on `"v3.0.0"` vs `"v1.0.0"`, which is outside `{-1,0,1}`. -/
theorem C3_compare_range_cex : compareSemVer "v3.0.0" "v1.0.0" = 2 ∧
    ¬(compareSemVer "v3.0.0" "v1.0.0" = -1 ∨ compareSemVer "v3.0.0" "v1.0.0" = 0 ∨
      compareSemVer "v3.0.0" "v1.0.0" = 1) := by decide

/-- Claim C3, amended: for inputs that both parse, `compareSemVer` returns
an integer whose sign is determined by strict field order (major, then
minor, then patch): zero exactly when all three components are equal,
negative exactly when the first version is lexicographically smaller,
positive exactly when it is larger — but the value itself is a raw field
difference, not confined to `{-1,0,1}`. -/
theorem C3_compare_sign_amended (a b : String) (sa sb : SemVer)
    (ha : parseSemVer a = some sa) (hb : parseSemVer b = some sb) :
    (compareSemVer a b = 0 ↔ (sa.major = sb.major ∧ sa.minor = sb.minor ∧ sa.patch = sb.patch)) ∧
    (compareSemVer a b < 0 ↔ (sa.major < sb.major ∨ (sa.major = sb.major ∧
      (sa.minor < sb.minor ∨ (sa.minor = sb.minor ∧ sa.patch < sb.patch))))) ∧
    (0 < compareSemVer a b ↔ (sb.major < sa.major ∨ (sb.major = sa.major ∧
      (sb.minor < sa.minor ∨ (sb.minor = sa.minor ∧ sb.patch < sa.patch))))) := by
  simp only [compareSemVer, ha, hb]
  split_ifs <;> omega

/-- Witness for C3: instantiated at `"v1.9.0"` and `"v1.10.0"`. -/
theorem C3_compare_sign_witness :
    parseSemVer "v1.9.0" = some ⟨1, 9, 0, "v1.9.0"⟩ ∧
    (compareSemVer "v1.9.0" "v1.10.0" < 0 ↔ ((1:Nat) < 1 ∨ (1 = 1 ∧
      ((9:Nat) < 10 ∨ (9 = 10 ∧ (0:Nat) < 0))))) :=
  ⟨by decide,
    (C3_compare_sign_amended "v1.9.0" "v1.10.0" ⟨1, 9, 0, "v1.9.0"⟩ ⟨1, 10, 0, "v1.10.0"⟩
      (by decide) (by decide)).2.1⟩

/-- Claim C4: a `fence` node whose `attributes.content` is the string `s`
extracts to exactly `s`, whatever the other fields (in particular the
children, which are never recursed into) hold. -/
theorem C4_fence_verbatim (s : String) (t2 a2 v2 ch2 tg2 x2 y2 c v ch tg xc xt : Val) :
    extractRawText (.vobj (.vstr "fence") (.vobj t2 a2 (.vstr s) v2 ch2 tg2 x2 y2)
      c v ch tg xc xt) = s := by
  cases ch <;>
    simp [extractRawText, Val.strEq, Val.truthy, Val.contentF, Val.isNullish, jsString]

/-- Claim C5, counterexample: with two fences whose contents are empty and
a trailing `original` tag, the transform falls back and returns `("x", "")`
instead of the first two fences' contents `("", "")`. -/
theorem C5_diff_resolve_cex :
    resolveDiffText [fenceV "", fenceV "", origTagV "x"] [] = ("x", "") ∧
    resolveDiffText [fenceV "", fenceV "", origTagV "x"] [] ≠ ("", "") := by decide

/-- Claim C5, amended: with at least two fence children the first two
fences' contents are used and extra fences ignored, and with exactly one
fence it becomes `originalText` only — in both cases provided at least
one resolved field is non-empty, since the legacy fallback reruns when
both are empty; with no fences, no `original`/`new` tag children, and no
transformed child carrying an `original`/`new` `__content` marker, both
fields are the empty string. -/
theorem C5_diff_resolve_amended (children tchildren : List Val) :
    (∀ f0 f1 rest, fenceNodesOf children = f0 :: f1 :: rest →
      (fenceContent f0 ≠ "" ∨ fenceContent f1 ≠ "") →
      resolveDiffText children tchildren = (fenceContent f0, fenceContent f1)) ∧
    (∀ f0, fenceNodesOf children = [f0] → fenceContent f0 ≠ "" →
      resolveDiffText children tchildren = (fenceContent f0, "")) ∧
    (fenceNodesOf children = [] →
      (∀ c ∈ tchildren, (c.attributesF.truthy && !(c.attributesF.xcontentF.isUndefined) &&
        (c.attributesF.xtagF.strEq "original" || c.attributesF.xtagF.strEq "new")) = false) →
      (∀ c ∈ children, (c.truthy && c.typeF.strEq "tag" &&
        (c.tagF.strEq "original" || c.tagF.strEq "new")) = false) →
      resolveDiffText children tchildren = ("", "")) := by
  refine ⟨?_, ?_, ?_⟩
  · intro f0 f1 rest hf hne
    rcases hne with hne | hne <;> simp [resolveDiffText, hf, hne]
  · intro f0 hf hne
    simp [resolveDiffText, hf, hne]
  · intro hf hm hc
    have e1 : tchildren.foldl applyMarker ("", "") = ("", "") :=
      foldl_keep _ _ _ fun c hmem acc => applyMarker_neutral c (hm c hmem) acc
    have e2 : children.foldl applyLegacyTag ("", "") = ("", "") :=
      foldl_keep _ _ _ fun c hmem acc => applyLegacyTag_neutral c (hc c hmem) acc
    simp [resolveDiffText, hf, e1, e2]

/-- Witness for C5: two fences with contents `"A"`, `"B"`. -/
theorem C5_diff_resolve_witness :
    resolveDiffText [fenceV "A", fenceV "B"] [] = ("A", "B") := by
  have h := (C5_diff_resolve_amended [fenceV "A", fenceV "B"] []).1 (fenceV "A") (fenceV "B") []
    rfl (Or.inl (by decide))
  rw [h]
  decide

/-- Claim C6: the extractor is total — it returns a string on every input
value, and an object with no attributes, content, value or children
yields the empty string whatever its `type` tag. -/
theorem C6_extractor_total : (∀ v : Val, ∃ s, extractRawText v = s) ∧
    (∀ t tg xc xt : Val,
      extractRawText (.vobj t .vundefined .vundefined .vundefined .vundefined tg xc xt) = "") := by
  refine ⟨fun v => ⟨_, rfl⟩, fun t tg xc xt => ?_⟩
  simp [extractRawText, Val.truthy, Val.isNullish, Val.contentF]

/-- Claim C10: `.md` is stripped only at the very end of the raw href and
before the hash fragment is removed, so `"/docs/page.md#section"`
normalizes to `"/docs/page.md"`, a key distinct from the one that
`"/docs/page.md"` and `"/docs/page"` share. -/
theorem C10_md_suffix_order : normalizeInternalPath "/docs/page.md#section" = "/docs/page.md" ∧
    normalizeInternalPath "/docs/page.md" = "/docs/page" ∧
    normalizeInternalPath "/docs/page" = "/docs/page" ∧
    ("/docs/page.md" : String) ≠ "/docs/page" := by decide

/-- Claim C7, counterexample: a rendered node named `"Heading"` with a
string first child that also carries the four ADR attributes contributes
two entries, not exactly one — the heading push happens before the ADR
check and is not exclusive with it. -/
theorem C7_adr_toc_cex :
    isADRNode adrAttrs = true ∧
    (collectHeadings (.tag "Heading" adrAttrs [.str "inner"])).length = 2 ∧
    (collectHeadings (.tag "Heading" adrAttrs [.str "inner"])).length ≠ 1 := by decide

/-- Claim C7, amended: every node carrying the four string ADR attributes
— except a node that is simultaneously heading-shaped (named `"Heading"`
with a string first child) — contributes exactly one entry: level 3, the
node's title, and id `generateSlug(id, title)`; its descendants
contribute nothing since the collector does not recurse into it. -/
theorem C7_adr_toc_amended (name : String) (attrs : List (String × Val)) (children : List RNode)
    (hadr : isADRNode attrs = true)
    (hnh : name = "Heading" → ∀ t, children.head? ≠ some (RNode.str t)) :
    collectHeadings (.tag name attrs children) =
      [[("level", Val.vnum 3),
        ("id", Val.vstr (generateSlug (getStrAttr attrs "id") (getStrAttr attrs "title"))),
        ("title", Val.vstr (getStrAttr attrs "title"))]] := by
  simp only [collectHeadings, hadr, if_true]
  by_cases hn : name = "Heading"
  · subst hn
    simp only [if_pos rfl]
    cases hh : children.head? with
    | none => simp [hh]
    | some x =>
      cases x with
      | str t => exact absurd hh (hnh rfl t)
      | tag n2 a2 c2 => simp [hh]
  · simp [hn]

/-- Witness for C7: a `"Div"` ADR node with a nested heading child. -/
theorem C7_adr_toc_witness :
    isADRNode adrAttrs = true ∧
    collectHeadings (.tag "Div" adrAttrs [.tag "Heading" [] [.str "nested"]]) =
      [[("level", Val.vnum 3),
        ("id", Val.vstr (generateSlug (getStrAttr adrAttrs "id") (getStrAttr adrAttrs "title"))),
        ("title", Val.vstr (getStrAttr adrAttrs "title"))]] :=
  ⟨by decide,
    C7_adr_toc_amended "Div" adrAttrs [.tag "Heading" [] [.str "nested"]] (by decide)
      (fun h => absurd h (by decide))⟩

/-! ### Backlink index lemmas for C8 -/

theorem lookupIdx_cons (k' : String) (es : List BacklinkEntry) (rest : BacklinksIndex) (k : String) :
    lookupIdx ((k', es) :: rest) k = if k' = k then some es else lookupIdx rest k := by
  by_cases h : k' = k <;> simp [lookupIdx, List.find?_cons, h]

theorem lookupIdx_append_none (idx idx2 : BacklinksIndex) (k : String)
    (h : lookupIdx idx k = none) : lookupIdx (idx ++ idx2) k = lookupIdx idx2 k := by
  induction idx with
  | nil => rfl
  | cons p rest ih =>
    obtain ⟨a, b⟩ := p
    rw [lookupIdx_cons] at h
    rw [List.cons_append, lookupIdx_cons]
    by_cases hp : a = k
    · simp [hp] at h
    · simp only [hp, if_false] at h ⊢
      exact ih h

theorem lookupIdx_append_some (idx idx2 : BacklinksIndex) (k : String)
    (es : List BacklinkEntry) (h : lookupIdx idx k = some es) :
    lookupIdx (idx ++ idx2) k = some es := by
  induction idx with
  | nil => simp [lookupIdx] at h
  | cons p rest ih =>
    obtain ⟨a, b⟩ := p
    rw [lookupIdx_cons] at h
    rw [List.cons_append, lookupIdx_cons]
    by_cases hp : a = k
    · simpa [hp] using h
    · simp only [hp, if_false] at h ⊢
      exact ih h

theorem lookupIdx_map_upd_same (idx : BacklinksIndex) (k' : String) (e : BacklinkEntry) :
    lookupIdx (idx.map fun p => if p.1 = k' then (p.1, p.2 ++ [e]) else p) k' =
      (lookupIdx idx k').map fun es => es ++ [e] := by
  induction idx with
  | nil => rfl
  | cons p rest ih =>
    obtain ⟨a, b⟩ := p
    rw [List.map_cons]
    by_cases hp : a = k'
    · simp [hp, lookupIdx_cons]
    · simp [hp, lookupIdx_cons, ih]

theorem lookupIdx_map_upd_ne (idx : BacklinksIndex) (k k' : String) (e : BacklinkEntry)
    (h : k ≠ k') :
    lookupIdx (idx.map fun p => if p.1 = k' then (p.1, p.2 ++ [e]) else p) k =
      lookupIdx idx k := by
  induction idx with
  | nil => rfl
  | cons p rest ih =>
    obtain ⟨a, b⟩ := p
    rw [List.map_cons]
    by_cases hp : a = k'
    · have hpk : ¬(a = k) := fun hh => h (hh ▸ hp)
      have hk'k : ¬(k' = k) := fun hh => h hh.symm
      simp [hp, hpk, hk'k, lookupIdx_cons, ih]
    · by_cases hpk : a = k
      · simp [hp, hpk, h, lookupIdx_cons]
      · simp [hp, hpk, lookupIdx_cons, ih]

theorem lookup_pushEntry_same (idx : BacklinksIndex) (k : String) (e : BacklinkEntry) :
    lookupIdx (pushEntry idx k e) k = some ((lookupIdx idx k).getD [] ++ [e]) := by
  unfold pushEntry
  cases hk : lookupIdx idx k with
  | none =>
    rw [lookupIdx_append_none idx _ k hk, lookupIdx_cons, if_pos rfl]
    rfl
  | some es =>
    rw [lookupIdx_map_upd_same, hk]
    rfl

theorem lookup_pushEntry_ne (idx : BacklinksIndex) (k k' : String) (e : BacklinkEntry)
    (h : k ≠ k') : lookupIdx (pushEntry idx k' e) k = lookupIdx idx k := by
  unfold pushEntry
  cases hk : lookupIdx idx k' with
  | none =>
    dsimp only
    cases hkk : lookupIdx idx k with
    | none =>
      rw [lookupIdx_append_none idx [(k', [e])] k hkk, lookupIdx_cons, if_neg (Ne.symm h)]
      rfl
    | some es =>
      rw [lookupIdx_append_some idx [(k', [e])] k es hkk]
  | some es =>
    dsimp only
    rw [lookupIdx_map_upd_ne idx k k' e h]

theorem hasEntry_pushEntry_self (idx : BacklinksIndex) (k : String) (e : BacklinkEntry) :
    hasEntry (pushEntry idx k e) k e :=
  ⟨_, lookup_pushEntry_same idx k e, List.mem_append_right _ (by simp)⟩

theorem hasEntry_pushEntry_mono (idx : BacklinksIndex) (k k' : String) (e e' : BacklinkEntry)
    (h : hasEntry idx k e) : hasEntry (pushEntry idx k' e') k e := by
  obtain ⟨es, hl, hm⟩ := h
  by_cases hkk : k = k'
  · subst hkk
    refine ⟨(lookupIdx idx k).getD [] ++ [e'], lookup_pushEntry_same idx k e', ?_⟩
    rw [hl]
    exact List.mem_append_left _ hm
  · exact ⟨es, by rw [lookup_pushEntry_ne idx k k' e' hkk]; exact hl, hm⟩

theorem hasEntry_foldl_push_mono (links : List String) (ent : BacklinkEntry)
    (idx : BacklinksIndex) (k : String) (e : BacklinkEntry) (h : hasEntry idx k e) :
    hasEntry (links.foldl (fun acc t => pushEntry acc t ent) idx) k e := by
  induction links generalizing idx with
  | nil => exact h
  | cons l ls ih => exact ih _ (hasEntry_pushEntry_mono _ _ _ _ _ h)

theorem hasEntry_foldl_push_mem (links : List String) (ent : BacklinkEntry)
    (idx : BacklinksIndex) (k : String) (h : k ∈ links) :
    hasEntry (links.foldl (fun acc t => pushEntry acc t ent) idx) k ent := by
  induction links generalizing idx with
  | nil => cases h
  | cons l ls ih =>
    rcases List.mem_cons.mp h with rfl | h'
    · exact hasEntry_foldl_push_mono ls ent _ k ent (hasEntry_pushEntry_self idx k ent)
    · exact ih _ h'

theorem hasEntry_indexPage_mono (idx : BacklinksIndex) (p : Page) (k : String)
    (e : BacklinkEntry) (h : hasEntry idx k e) : hasEntry (indexPage idx p) k e := by
  unfold indexPage
  exact hasEntry_foldl_push_mono _ _ _ _ _ (hasEntry_foldl_push_mono _ _ _ _ _ h)

theorem hasEntry_indexPage_md (idx : BacklinksIndex) (p : Page) (k : String)
    (h : k ∈ extractMarkdownLinks p.content) :
    hasEntry (indexPage idx p) k ⟨p.path, p.title, LinkType.markdown⟩ := by
  unfold indexPage
  exact hasEntry_foldl_push_mono _ _ _ _ _ (hasEntry_foldl_push_mem _ _ _ _ h)

theorem hasEntry_foldPages_mono (pages : List Page) (idx : BacklinksIndex) (k : String)
    (e : BacklinkEntry) (h : hasEntry idx k e) :
    hasEntry (pages.foldl indexPage idx) k e := by
  induction pages generalizing idx with
  | nil => exact h
  | cons q qs ih => exact ih _ (hasEntry_indexPage_mono _ _ _ _ h)

theorem hasEntry_foldPages (pages : List Page) (idx : BacklinksIndex) (p : Page) (k : String)
    (hp : p ∈ pages) (h : k ∈ extractMarkdownLinks p.content) :
    hasEntry (pages.foldl indexPage idx) k ⟨p.path, p.title, LinkType.markdown⟩ := by
  induction pages generalizing idx with
  | nil => cases hp
  | cons q qs ih =>
    rcases List.mem_cons.mp hp with rfl | hp'
    · exact hasEntry_foldPages_mono qs _ k _ (hasEntry_indexPage_md idx p k h)
    · exact ih _ hp'

/-- Claim C8: any page containing a markdown link whose internal href
normalizes to `"/docs/page"` (as `"/docs/page.md"`, `"/docs/page/"` and
`"/docs/page#section"` all do) contributes an entry to the single index
bucket `"/docs/page"`; `getBacklinksForPage` applies the same
normalization to its query and returns `[]` when the key is absent. -/
theorem C8_backlinks_normalized :
    (∀ (pages : List Page) (p : Page) (href : String), p ∈ pages →
      href ∈ rawMdHrefs p.content → strStarts href "/" = true →
      normalizeInternalPath href = "/docs/page" →
      hasEntry (buildBacklinksIndex pages) "/docs/page" ⟨p.path, p.title, LinkType.markdown⟩) ∧
    (normalizeInternalPath "/docs/page.md" = "/docs/page" ∧
     normalizeInternalPath "/docs/page/" = "/docs/page" ∧
     normalizeInternalPath "/docs/page#section" = "/docs/page") ∧
    (∀ q idx, lookupIdx idx (normalizeInternalPath q) = none → getBacklinksForPage q idx = []) ∧
    (∀ idx, getBacklinksForPage "/docs/page.md" idx = getBacklinksForPage "/docs/page/" idx ∧
      getBacklinksForPage "/docs/page/" idx = getBacklinksForPage "/docs/page#section" idx) := by
  refine ⟨?_, by decide, ?_, ?_⟩
  · intro pages p href hp hraw hstart hnorm
    have hmem : "/docs/page" ∈ extractMarkdownLinks p.content := by
      unfold extractMarkdownLinks
      exact List.mem_filterMap.mpr ⟨href, hraw, by simp [hstart, hnorm]⟩
    exact hasEntry_foldPages pages [] p "/docs/page" hp hmem
  · intro q idx h
    simp [getBacklinksForPage, h]
  · intro idx
    unfold getBacklinksForPage
    rw [show normalizeInternalPath "/docs/page.md" = normalizeInternalPath "/docs/page/" from by decide,
      show normalizeInternalPath "/docs/page/" = normalizeInternalPath "/docs/page#section" from by decide]
    exact ⟨rfl, rfl⟩

/-- Witness for C8: a one-page site linking to `"/docs/page.md"`, and a
lookup that misses. -/
theorem C8_backlinks_normalized_witness :
    hasEntry (buildBacklinksIndex [⟨"/src", "Source", "see [p](/docs/page.md)"⟩]) "/docs/page"
      ⟨"/src", "Source", LinkType.markdown⟩ ∧
    getBacklinksForPage "/absent" [] = [] :=
  ⟨C8_backlinks_normalized.1 [⟨"/src", "Source", "see [p](/docs/page.md)"⟩]
      ⟨"/src", "Source", "see [p](/docs/page.md)"⟩ "/docs/page.md"
      (by simp) (by decide) (by decide) (by decide),
    C8_backlinks_normalized.2.2.1 "/absent" [] (by decide)⟩

/-! ### Parser invariant lemmas for C9 -/

theorem wfTreeList_append (a b : List TreeNode) :
    wfTreeList (a ++ b) = (wfTreeList a && wfTreeList b) := by
  induction a with
  | nil => simp [wfTreeList]
  | cons t ts ih => simp [wfTreeList, ih, Bool.and_assoc]

theorem wf_addChild1 (p c : TreeNode) (hp : wfTree p = true) (hc : wfTree c = true) :
    wfTree (addChild1 p c) = true := by
  obtain ⟨n, f, ch⟩ := p
  cases ch with
  | none => exact hp
  | some l =>
    simp only [wfTree, Bool.and_eq_true] at hp
    simp [addChild1, wfTree, wfTreeList_append, wfTreeList, hp.1, hp.2, hc]

theorem addChild1_isFolder (p c : TreeNode) : (addChild1 p c).isFolder = p.isFolder := by
  obtain ⟨n, f, ch⟩ := p
  cases ch <;> rfl

theorem collapse_wf (popped : List (TreeNode × Nat))
    (hall : ∀ e ∈ popped, wfTree e.1 = true) :
    ∀ (pend : Option TreeNode), (∀ x, pend = some x → wfTree x = true) →
    ∀ m, popped.foldl
      (fun pending e => some (match pending with | none => e.1 | some c => addChild1 e.1 c))
      pend = some m → wfTree m = true := by
  induction popped with
  | nil =>
    intro pend hpend m hm
    exact hpend m hm
  | cons e rest ih =>
    intro pend hpend m hm
    refine ih (fun x hx => hall x (by simp [hx])) _ ?_ m hm
    intro x hx
    cases pend with
    | none =>
      simp only [Option.some.injEq] at hx
      exact hx ▸ hall e (by simp)
    | some c =>
      simp only [Option.some.injEq] at hx
      exact hx ▸ wf_addChild1 e.1 c (hall e (by simp)) (hpend c rfl)

theorem collapsePopped1_eq_foldl (popped : List (TreeNode × Nat)) :
    collapsePopped1 popped = popped.foldl
      (fun pending e => some (match pending with | none => e.1 | some c => addChild1 e.1 c))
      none := rfl

theorem popWhile1_good (d : Nat) (st : P1State)
    (hroot : wfTreeList st.1 = true)
    (hstack : ∀ e ∈ st.2, wfTree e.1 = true ∧ e.1.isFolder = true) :
    wfTreeList (popWhile1 d st).1 = true ∧
    ∀ e ∈ (popWhile1 d st).2, wfTree e.1 = true ∧ e.1.isFolder = true := by
  have hpop : ∀ e ∈ st.2.takeWhile (fun e => d ≤ e.2), wfTree e.1 = true :=
    fun e he => (hstack e (List.takeWhile_subset _ he)).1
  have hkeep : ∀ e ∈ st.2.dropWhile (fun e => d ≤ e.2), wfTree e.1 = true ∧ e.1.isFolder = true :=
    fun e he => hstack e (List.dropWhile_subset _ he)
  unfold popWhile1
  dsimp only
  split
  · exact ⟨hroot, hkeep⟩
  case _ m hc =>
    have hm : wfTree m = true :=
      collapse_wf _ hpop none (by intro x hx; cases hx) m
        (by rw [← collapsePopped1_eq_foldl]; exact hc)
    split
    case _ p i restK hk =>
      refine ⟨hroot, ?_⟩
      intro e he
      rcases List.mem_cons.mp he with rfl | he'
      · have hp := hkeep (p, i) (by rw [hk]; simp)
        exact ⟨wf_addChild1 p m hp.1 hm, by rw [addChild1_isFolder]; exact hp.2⟩
      · exact hkeep e (by rw [hk]; simp [he'])
    case _ hk =>
      refine ⟨?_, by intro e he; cases he⟩
      simp [wfTreeList_append, hroot, wfTreeList, hm]

theorem step1_good (st : P1State) (line : List Char)
    (hroot : wfTreeList st.1 = true)
    (hstack : ∀ e ∈ st.2, wfTree e.1 = true ∧ e.1.isFolder = true) :
    wfTreeList (step1 st line).1 = true ∧
    ∀ e ∈ (step1 st line).2, wfTree e.1 = true ∧ e.1.isFolder = true := by
  unfold step1
  split
  · exact ⟨hroot, hstack⟩
  · dsimp only
    have hgood := popWhile1_good ((line.takeWhile Char.isWhitespace).length) st hroot hstack
    set st' := popWhile1 ((line.takeWhile Char.isWhitespace).length) st with hst'
    split
    case _ hfold =>
      refine ⟨hgood.1, ?_⟩
      intro e he
      rcases List.mem_cons.mp he with rfl | he'
      · simp [hfold, TreeNode.isFolder, wfTree, wfTreeList]
      · exact hgood.2 e he'
    case _ hfold =>
      split
      case _ hk =>
        refine ⟨?_, by intro e he; cases he⟩
        simp [wfTreeList_append, hgood.1, wfTreeList, wfTree, hfold]
      case _ p i rest hk =>
        refine ⟨hgood.1, ?_⟩
        intro e he
        rcases List.mem_cons.mp he with rfl | he'
        · have hp := hgood.2 (p, i) (by rw [hk]; simp)
          refine ⟨wf_addChild1 p _ hp.1 ?_, by rw [addChild1_isFolder]; exact hp.2⟩
          simp [hfold, wfTree]
        · exact hgood.2 e (by rw [hk]; simp [he'])

theorem foldl_step1_good (lines : List (List Char)) (st : P1State)
    (hroot : wfTreeList st.1 = true)
    (hstack : ∀ e ∈ st.2, wfTree e.1 = true ∧ e.1.isFolder = true) :
    wfTreeList (lines.foldl step1 st).1 = true ∧
    ∀ e ∈ (lines.foldl step1 st).2, wfTree e.1 = true ∧ e.1.isFolder = true := by
  induction lines generalizing st with
  | nil => exact ⟨hroot, hstack⟩
  | cons l ls ih =>
    have h := step1_good st l hroot hstack
    exact ih (step1 st l) h.1 h.2

/-- Claim C9: every node in the forest produced by the `CodeBlock.tsx`
`parseFileTree` satisfies `isFolder = true` iff its `children` field is
present (possibly as an empty list) — `wfTree` states exactly that and
holds recursively over the whole output. -/
theorem C9_folder_children_invariant (content : String) :
    wfTreeList (CodeBlock.parseFileTree content) = true := by
  unfold CodeBlock.parseFileTree
  have h := foldl_step1_good (splitLines (trimChars content.data)) ([], [])
    rfl (by intro e he; cases he)
  exact (popWhile1_good 0 _ h.1 h.2).1

/-! ### Parser simulation lemmas for C2 -/

theorem toPlain1List_append (a b : List TreeNode) :
    toPlain1List (a ++ b) = toPlain1List a ++ toPlain1List b := by
  induction a with
  | nil => rfl
  | cons t ts ih => simp [toPlain1List, ih]

theorem toPlain2List_append (a b : List TreeNode2) :
    toPlain2List (a ++ b) = toPlain2List a ++ toPlain2List b := by
  induction a with
  | nil => rfl
  | cons t ts ih => simp [toPlain2List, ih]

theorem addChild1_name (p c : TreeNode) : (addChild1 p c).name = p.name := by
  obtain ⟨n, f, ch⟩ := p
  cases ch <;> rfl

theorem addChild1_children_some (p c : TreeNode) (l : List TreeNode)
    (h : p.children = some l) : (addChild1 p c).children = some (l ++ [c]) := by
  obtain ⟨n, f, ch⟩ := p
  cases ch with
  | none => cases h
  | some l' =>
    simp only [TreeNode.children, Option.some.injEq] at h
    simp [addChild1, TreeNode.children, h]

theorem addChild2_name (p c : TreeNode2) : (addChild2 p c).name = p.name := by
  obtain ⟨n, f, lv, ch⟩ := p
  cases ch <;> rfl

theorem addChild2_isFolder (p c : TreeNode2) : (addChild2 p c).isFolder = p.isFolder := by
  obtain ⟨n, f, lv, ch⟩ := p
  cases ch <;> rfl

theorem addChild2_children (p c : TreeNode2) :
    (addChild2 p c).children = some (optL p.children ++ [c]) := by
  obtain ⟨n, f, lv, ch⟩ := p
  cases ch <;> rfl

theorem toPlain1_eq (p : TreeNode) (c1 : List TreeNode) (h : p.children = some c1) :
    toPlain1 p = PTree.mk p.name p.isFolder (toPlain1List c1) := by
  obtain ⟨n, f, ch⟩ := p
  cases ch with
  | none => cases h
  | some l =>
    simp only [TreeNode.children, Option.some.injEq] at h
    subst h
    rfl

theorem toPlain2_eq (p : TreeNode2) :
    toPlain2 p = PTree.mk p.name p.isFolder (toPlain2List (optL p.children)) := by
  obtain ⟨n, f, lv, ch⟩ := p
  cases ch <;> rfl

theorem popWhile1_nil (d : Nat) (r1 : List TreeNode) : popWhile1 d (r1, []) = (r1, []) := rfl

theorem popWhile2_nil (d : Nat) (r2 : List TreeNode2) : popWhile2 d (r2, []) = (r2, []) := rfl

theorem popWhile1_stop (d : Nat) (r1 : List TreeNode) (p1 : TreeNode) (i1 : Nat)
    (rest1 : List (TreeNode × Nat)) (h : ¬(d ≤ i1)) :
    popWhile1 d (r1, (p1, i1) :: rest1) = (r1, (p1, i1) :: rest1) := by
  unfold popWhile1
  simp [List.takeWhile_cons, List.dropWhile_cons, h, collapsePopped1]

theorem popWhile2_stop (d : Nat) (r2 : List TreeNode2) (p2 : TreeNode2) (l2 : Nat)
    (rest2 : List (TreeNode2 × Nat)) (h : ¬(d ≤ l2)) :
    popWhile2 d (r2, (p2, l2) :: rest2) = (r2, (p2, l2) :: rest2) := by
  unfold popWhile2
  simp [List.takeWhile_cons, List.dropWhile_cons, h, collapsePopped2]

theorem popWhile1_peel (d : Nat) (r1 : List TreeNode) (p1 : TreeNode) (i1 : Nat)
    (rest1 : List (TreeNode × Nat)) (h : d ≤ i1) :
    popWhile1 d (r1, (p1, i1) :: rest1) =
      popWhile1 d (match rest1 with
        | (q, j) :: r => (r1, (addChild1 q p1, j) :: r)
        | [] => (r1 ++ [p1], [])) := by
  cases rest1 with
  | nil =>
    unfold popWhile1
    simp [List.takeWhile_cons, List.dropWhile_cons, h, collapsePopped1]
  | cons qj r =>
    obtain ⟨q, j⟩ := qj
    by_cases hj : d ≤ j
    · unfold popWhile1 collapsePopped1
      simp [List.takeWhile_cons, List.dropWhile_cons, h, hj, List.foldl_cons]
    · unfold popWhile1 collapsePopped1
      simp [List.takeWhile_cons, List.dropWhile_cons, h, hj, List.foldl_cons]

theorem popWhile2_peel (d : Nat) (r2 : List TreeNode2) (p2 : TreeNode2) (l2 : Nat)
    (rest2 : List (TreeNode2 × Nat)) (h : d ≤ l2) :
    popWhile2 d (r2, (p2, l2) :: rest2) =
      popWhile2 d (match rest2 with
        | (q, j) :: r => (r2, (addChild2 q p2, j) :: r)
        | [] => (r2 ++ [p2], [])) := by
  cases rest2 with
  | nil =>
    unfold popWhile2
    simp [List.takeWhile_cons, List.dropWhile_cons, h, collapsePopped2]
  | cons qj r =>
    obtain ⟨q, j⟩ := qj
    by_cases hj : d ≤ j
    · unfold popWhile2 collapsePopped2
      simp [List.takeWhile_cons, List.dropWhile_cons, h, hj, List.foldl_cons]
    · unfold popWhile2 collapsePopped2
      simp [List.takeWhile_cons, List.dropWhile_cons, h, hj, List.foldl_cons]

theorem popRel (d : Nat) : ∀ (n : Nat) (s1 : P1State) (s2 : P2State),
    s1.2.length = n →
    toPlain1List s1.1 = toPlain2List s2.1 → StackRel s1.2 s2.2 →
    toPlain1List (popWhile1 d s1).1 = toPlain2List (popWhile2 d s2).1 ∧
    StackRel (popWhile1 d s1).2 (popWhile2 d s2).2 := by
  intro n
  induction n with
  | zero =>
    intro s1 s2 hlen hroot hrel
    obtain ⟨r1, st1⟩ := s1
    obtain ⟨r2, st2⟩ := s2
    simp only [List.length_eq_zero] at hlen
    subst hlen
    cases st2 with
    | nil => exact ⟨hroot, trivial⟩
    | cons e2 rest2 => exact absurd hrel (by simp [StackRel])
  | succ n ih =>
    intro s1 s2 hlen hroot hrel
    obtain ⟨r1, st1⟩ := s1
    obtain ⟨r2, st2⟩ := s2
    cases st1 with
    | nil => simp at hlen
    | cons e1 rest1 =>
      obtain ⟨p1, i1⟩ := e1
      cases st2 with
      | nil => exact absurd hrel (by simp [StackRel])
      | cons e2 rest2 =>
        obtain ⟨p2, l2⟩ := e2
        obtain ⟨hi, hname, hf1, hf2, ⟨c1, hc1, hpl⟩, hrest⟩ := hrel
        subst hi
        have hp12 : toPlain1 p1 = toPlain2 p2 := by
          rw [toPlain1_eq p1 c1 hc1, toPlain2_eq p2, hname, hf1, hf2, hpl]
        simp only [List.length_cons, Nat.succ_inj'] at hlen
        by_cases hd : d ≤ i1
        · rw [popWhile1_peel d r1 p1 i1 rest1 hd, popWhile2_peel d r2 p2 i1 rest2 hd]
          cases rest1 with
          | nil =>
            cases rest2 with
            | cons e2' r2' => exact absurd hrest (by simp [StackRel])
            | nil =>
              refine ih (r1 ++ [p1], []) (r2 ++ [p2], []) (by simpa using hlen) ?_ trivial
              rw [toPlain1List_append, toPlain2List_append, hroot]
              dsimp only
              simp [toPlain1List, toPlain2List, hp12]
          | cons eq1 r1' =>
            obtain ⟨q1, j1⟩ := eq1
            cases rest2 with
            | nil => exact absurd hrest (by simp [StackRel])
            | cons eq2 r2' =>
              obtain ⟨q2, j2⟩ := eq2
              obtain ⟨hj, hqname, hqf1, hqf2, ⟨cq, hcq, hql⟩, hrest'⟩ := hrest
              refine ih (r1, (addChild1 q1 p1, j1) :: r1')
                (r2, (addChild2 q2 p2, j2) :: r2') (by simpa using hlen) hroot ?_
              refine ⟨hj, ?_, ?_, ?_, ?_, hrest'⟩
              · rw [addChild1_name, addChild2_name, hqname]
              · rw [addChild1_isFolder]; exact hqf1
              · rw [addChild2_isFolder]; exact hqf2
              · refine ⟨cq ++ [p1], addChild1_children_some q1 p1 cq hcq, ?_⟩
                rw [toPlain1List_append, addChild2_children, hql]
                simp [optL, toPlain2List_append, toPlain1List, toPlain2List, hp12]
        · rw [popWhile1_stop _ _ _ _ _ hd, popWhile2_stop _ _ _ _ _ hd]
          exact ⟨hroot, rfl, hname, hf1, hf2, ⟨c1, hc1, hpl⟩, hrest⟩

theorem goodFold_false (lines : List (List Char)) :
    ∀ (s : List (Bool × Nat) × Bool), s.2 = false → (lines.foldl goodStep s).2 = false := by
  induction lines with
  | nil => intro s h; exact h
  | cons l ls ih =>
    intro s h
    refine ih _ ?_
    unfold goodStep
    split
    · exact h
    · simp [h]

theorem shapeOf_dropWhile (d : Nat) (l : List (TreeNode2 × Nat)) :
    shapeOf (l.dropWhile fun e => d ≤ e.2) = (shapeOf l).dropWhile fun e => d ≤ e.2 := by
  induction l with
  | nil => rfl
  | cons p rest ih =>
    obtain ⟨n2, lv⟩ := p
    rw [show shapeOf ((n2, lv) :: rest) = (n2.isFolder, lv) :: shapeOf rest from rfl,
      List.dropWhile_cons, List.dropWhile_cons]
    by_cases h : d ≤ lv
    · simp only [shapeOf] at ih
      simp [h, shapeOf, ih]
    · simp [h, shapeOf]

theorem shapeOf_popWhile2 (d : Nat) (st : P2State) :
    shapeOf (popWhile2 d st).2 = (shapeOf st.2).dropWhile fun e => d ≤ e.2 := by
  unfold popWhile2
  dsimp only
  split
  · exact shapeOf_dropWhile d st.2
  · split
    next p i restK heq1 =>
      dsimp only
      rw [← shapeOf_dropWhile, heq1]
      simp [shapeOf, addChild2_isFolder]
    next heq1 =>
      dsimp only
      rw [← shapeOf_dropWhile, heq1]

theorem simStepCore (d : Nat) (nm : String) (isP : Prop) [Decidable isP]
    (s1 : P1State) (q2 : P2State)
    (hroot : toPlain1List s1.1 = toPlain2List q2.1)
    (hrel : StackRel s1.2 q2.2) :
    SimInv
      (if isP then
        ((popWhile1 d s1).1,
          (TreeNode.mk nm (decide isP) (if isP then some [] else none), d) :: (popWhile1 d s1).2)
      else
        match (popWhile1 d s1).2 with
        | [] => ((popWhile1 d s1).1 ++ [TreeNode.mk nm (decide isP) (if isP then some [] else none)], [])
        | (p, i) :: rest =>
          ((popWhile1 d s1).1,
            (addChild1 p (TreeNode.mk nm (decide isP) (if isP then some [] else none)), i) :: rest))
      ((popWhile2 d q2).1, (TreeNode2.mk nm (decide isP) d none, d) :: (popWhile2 d q2).2) := by
  have hpop := popRel d s1.2.length s1 q2 rfl hroot hrel
  by_cases hP : isP
  · rw [if_pos hP, if_pos hP, decide_eq_true hP]
    exact Or.inl ⟨hpop.1, rfl, rfl, rfl, rfl, ⟨[], rfl, rfl⟩, hpop.2⟩
  · rw [if_neg hP, if_neg hP, decide_eq_false hP]
    cases h1 : (popWhile1 d s1).2 with
    | nil =>
      have h2 : (popWhile2 d q2).2 = [] := by
        have hx := hpop.2
        rw [h1] at hx
        cases h2 : (popWhile2 d q2).2 with
        | nil => rfl
        | cons e r =>
          rw [h2] at hx
          exact absurd hx (by simp [StackRel])
      refine Or.inr ⟨TreeNode2.mk nm false d none, d, [], by rw [h2], rfl, rfl, ?_⟩
      simp only [h2]
      rw [toPlain1List_append]
      simp [toPlain1List, toPlain1, toPlain2, hpop.1]
    | cons e1 rest1 =>
      obtain ⟨p1, i1⟩ := e1
      have hrel2 := hpop.2
      rw [h1] at hrel2
      cases h2 : (popWhile2 d q2).2 with
      | nil =>
        rw [h2] at hrel2
        exact absurd hrel2 (by simp [StackRel])
      | cons e2 rest2 =>
        obtain ⟨p2, l2⟩ := e2
        rw [h2] at hrel2
        obtain ⟨hi, hname, hf1, hf2, ⟨c1, hc1, hpl⟩, hrest⟩ := hrel2
        refine Or.inr ⟨TreeNode2.mk nm false d none, d, (p2, l2) :: rest2, rfl, rfl, rfl, ?_⟩
        refine ⟨hpop.1, hi, ?_, ?_, hf2, ?_, hrest⟩
        · rw [addChild1_name]; exact hname
        · rw [addChild1_isFolder]; exact hf1
        · refine ⟨c1 ++ [TreeNode.mk nm false none], addChild1_children_some p1 _ c1 hc1, ?_⟩
          rw [toPlain1List_append, hpl]
          simp [toPlain1List, toPlain1, toPlain2]

theorem simInv_peel (d : Nat) (s1 : P1State) (s2 : P2State) (hinv : SimInv s1 s2)
    (hd : ∀ f fl rest, s2.2 = (f, fl) :: rest → f.isFolder = false → d ≤ fl) :
    ∃ q2 : P2State, popWhile2 d s2 = popWhile2 d q2 ∧
      toPlain1List s1.1 = toPlain2List q2.1 ∧ StackRel s1.2 q2.2 := by
  rcases hinv with ⟨hroot, hrel⟩ | ⟨f, fl, rest, hs2, hff, hfc, hB⟩
  · exact ⟨s2, rfl, hroot, hrel⟩
  · obtain ⟨r2, st2⟩ := s2
    simp only at hs2
    subst hs2
    have hdl : d ≤ fl := hd f fl rest rfl hff
    cases rest with
    | nil =>
      cases hst1 : s1.2 with
      | cons e1 rest1 =>
        rw [hst1] at hB
        exact absurd hB (by simp)
      | nil =>
        rw [hst1] at hB
        dsimp only at hB
        refine ⟨(r2 ++ [f], []), ?_, ?_, by trivial⟩
        · exact popWhile2_peel d r2 f fl [] hdl
        · dsimp only
          rw [toPlain2List_append, hB]
          rfl
    | cons e2 rest2 =>
      obtain ⟨p2, l2⟩ := e2
      cases hst1 : s1.2 with
      | nil =>
        rw [hst1] at hB
        exact absurd hB (by simp)
      | cons e1 rest1 =>
        obtain ⟨p1, i1⟩ := e1
        rw [hst1] at hB
        dsimp only at hB
        obtain ⟨hroot, hi, hname, hf1, hf2, ⟨c1, hc1, hpl⟩, hrest⟩ := hB
        refine ⟨(r2, (addChild2 p2 f, l2) :: rest2), ?_, hroot, ?_⟩
        · exact popWhile2_peel d r2 f fl ((p2, l2) :: rest2) hdl
        · refine ⟨hi, ?_, hf1, ?_, ?_, hrest⟩
          · rw [addChild2_name]; exact hname
          · rw [addChild2_isFolder]; exact hf2
          · refine ⟨c1, hc1, ?_⟩
            rw [hpl, addChild2_children]
            simp [optL, toPlain2List_append, toPlain2List]

theorem shapeOf_cons (n : TreeNode2) (d : Nat) (rest : List (TreeNode2 × Nat)) :
    shapeOf ((n, d) :: rest) = (n.isFolder, d) :: shapeOf rest := rfl

theorem shapeStep (l : List Char) (s2 : P2State) (b : Bool) :
    shapeOf (step2 s2 l).2 = (goodStep (shapeOf s2.2, b) l).1 := by
  unfold step2 goodStep
  by_cases hb : (trimChars l).isEmpty = true
  · simp [hb]
  · simp only [hb, Bool.false_eq_true, if_false]
    rw [shapeOf_cons, shapeOf_popWhile2]
    rfl

theorem simStep (l : List Char) (s1 : P1State) (s2 : P2State)
    (hinv : SimInv s1 s2)
    (hok : (goodStep (shapeOf s2.2, true) l).2 = true) :
    SimInv (step1 s1 l) (step2 s2 l) := by
  by_cases hb : (trimChars l).isEmpty = true
  · unfold step1 step2
    simp only [hb, if_true]
    exact hinv
  · have hd : ∀ f fl rest, s2.2 = (f, fl) :: rest → f.isFolder = false →
        (l.takeWhile Char.isWhitespace).length ≤ fl := by
      intro f fl rest hs2 hff
      by_contra hnot
      unfold goodStep at hok
      rw [if_neg hb] at hok
      dsimp only at hok
      rw [hs2, shapeOf_cons, List.dropWhile_cons] at hok
      simp [hnot, hff] at hok
    obtain ⟨q2, hq, hroot, hrel⟩ := simInv_peel _ s1 s2 hinv hd
    unfold step1 step2
    simp only [hb, Bool.false_eq_true, if_false]
    rw [hq]
    exact simStepCore _ _ _ s1 q2 hroot hrel

theorem simFold (lines : List (List Char)) : ∀ (s1 : P1State) (s2 : P2State),
    SimInv s1 s2 → (lines.foldl goodStep (shapeOf s2.2, true)).2 = true →
    SimInv (lines.foldl step1 s1) (lines.foldl step2 s2) := by
  induction lines with
  | nil =>
    intro s1 s2 h _
    exact h
  | cons l ls ih =>
    intro s1 s2 hinv hok
    simp only [List.foldl_cons] at hok ⊢
    have h1 : (goodStep (shapeOf s2.2, true) l).2 = true := by
      by_contra hc
      have hf := goodFold_false ls (goodStep (shapeOf s2.2, true) l) (Bool.not_eq_true _ ▸ hc)
      rw [hf] at hok
      cases hok
    have hstep := simStep l s1 s2 hinv h1
    apply ih (step1 s1 l) (step2 s2 l) hstep
    have hsh : goodStep (shapeOf s2.2, true) l = (shapeOf (step2 s2 l).2, true) := by
      have h2 := shapeStep l s2 true
      exact Prod.ext h2.symm h1
    rw [← hsh]
    exact hok

/-- Claim C2, amended: the two parsers differ in more than indentation
measurement — `part_017` also pushes file nodes onto its stack.  For
every input whose nonblank lines are uniformly indented by multiples of
two spaces and in which the `part_017` parser never attaches a line to a
non-folder parent (`goodLines`), both parsers produce the same forest:
same names in the same order, same `isFolder` flags, same nesting,
ignoring `part_017`'s `level` field and reading absent children as
empty. -/
theorem C2_parser_equiv_amended (content : String)
    (_heven : evenIndents (linesOf content) = true)
    (hgood : goodLines (linesOf content) = true) :
    toPlain1List (CodeBlock.parseFileTree content) =
      toPlain2List (Part017.parseFileTree content) := by
  unfold CodeBlock.parseFileTree Part017.parseFileTree
  have hsim : SimInv ((linesOf content).foldl step1 ([], []))
      ((linesOf content).foldl step2 ([], [])) := by
    refine simFold (linesOf content) ([], []) ([], []) (Or.inl ⟨rfl, trivial⟩) ?_
    exact hgood
  obtain ⟨q2, hq, hroot, hrel⟩ := simInv_peel 0 _ _ hsim (fun f fl rest _ _ => Nat.zero_le fl)
  have hfin := popRel 0 ((linesOf content).foldl step1 ([], [])).2.length _ q2 rfl hroot hrel
  show toPlain1List (popWhile1 0 ((linesOf content).foldl step1 ([], []))).1 =
    toPlain2List (popWhile2 0 ((linesOf content).foldl step2 ([], []))).1
  rw [hq]
  exact hfin.1

/-- Claim C2, counterexample: on `"a.txt\n  b.txt"` — uniform two-space
indentation — the `CodeBlock.tsx` parser yields two roots while the
`part_017` parser nests `b.txt` under the file `a.txt` (it pushes
non-folder nodes onto its stack), so the plain trees differ. -/
theorem C2_parser_equiv_cex :
    evenIndents (linesOf "a.txt\n  b.txt") = true ∧
    (toPlain1List (CodeBlock.parseFileTree "a.txt\n  b.txt")).length = 2 ∧
    (toPlain2List (Part017.parseFileTree "a.txt\n  b.txt")).length = 1 ∧
    toPlain1List (CodeBlock.parseFileTree "a.txt\n  b.txt") ≠
      toPlain2List (Part017.parseFileTree "a.txt\n  b.txt") := by
  refine ⟨by decide, by decide, by decide, ?_⟩
  intro h
  have hlen := congrArg List.length h
  have e1 : (toPlain1List (CodeBlock.parseFileTree "a.txt\n  b.txt")).length = 2 := by decide
  have e2 : (toPlain2List (Part017.parseFileTree "a.txt\n  b.txt")).length = 1 := by decide
  rw [e1, e2] at hlen
  cases hlen

/-- Witness for C2: the spec's nested `src/` example. -/
theorem C2_parser_equiv_witness :
    evenIndents (linesOf "src/\n  components/\n    Button.tsx\n  utils/\n    helpers.ts") = true ∧
    goodLines (linesOf "src/\n  components/\n    Button.tsx\n  utils/\n    helpers.ts") = true ∧
    toPlain1List (CodeBlock.parseFileTree "src/\n  components/\n    Button.tsx\n  utils/\n    helpers.ts") =
      toPlain2List (Part017.parseFileTree "src/\n  components/\n    Button.tsx\n  utils/\n    helpers.ts") :=
  ⟨by decide, by decide, C2_parser_equiv_amended _ (by decide) (by decide)⟩
